import Mathlib

/-!
# Formal model of the macron command argument parsing engine

This file gives a shallow embedding, in Lean 4, of the argument parsing and
binding engine of the macron chat-bot command framework, together with
theorems settling a list of specification claims about it.

The Go sources contain two historical variants of `ParseArguments` in the
`command` package:

* a character-scanning variant (quote/escape aware, with a trailing `Rest`
  capture and a `Duration` argument type) — embedded below in namespace
  `Scan`;
* a whitespace-splitting variant (`strings.Fields` based, with a typed
  `Variadic` collector and no quote support) — embedded below in namespace
  `Fields`.

Both are translated directly from the source.  External library functions
(`strconv`, `strings`, the `hdur` duration library, and the Telegram client
used by entity resolution) are modelled from their documented behaviour.
-/

namespace Macron

/-! ## Models of Go standard-library helpers -/

/-- A decimal digit. -/
def isDigitCh (c : Char) : Bool := '0' ≤ c && c ≤ '9'

/-- Value of a nonempty all-digit run; `none` if empty or a non-digit occurs.
Models the digit-accumulation loop of `strconv.ParseInt` for base 10. -/
def digitsVal (acc : Nat) : List Char → Option Nat
  | [] => some acc
  | c :: cs => if isDigitCh c then digitsVal (acc * 10 + (c.toNat - '0'.toNat)) cs else none

/-- Structured stand-ins for the distinct coercion error messages produced by
`parseValue` (each constructor corresponds to one distinct Go error format). -/
inductive CoercionError
  | atoiSyntax (s : String)
  | atoiRange (s : String)
  | floatSyntax (s : String)
  | boolSyntax (s : String)
  | durationErr (s : String)
  | unsupportedType
deriving DecidableEq, Repr

/-- Model of `strconv.Atoi` (equivalently `strconv.ParseInt(s, 10, 0)` on a
64-bit platform): optional sign, a nonempty run of decimal digits, with a
64-bit signed range check. -/
def goAtoi (s : String) : Except CoercionError Int :=
  match s.data with
  | [] => .error (.atoiSyntax s)
  | c :: cs =>
    let signDigits : Bool × List Char :=
      if c = '-' then (true, cs) else if c = '+' then (false, cs) else (false, c :: cs)
    match signDigits with
    | (neg, ds) =>
      if ds = [] then .error (.atoiSyntax s)
      else
        match digitsVal 0 ds with
        | none => .error (.atoiSyntax s)
        | some n =>
          let v : Int := if neg then -(n : Int) else (n : Int)
          if v < -(2 ^ 63) || (2 ^ 63 - 1) < v then .error (.atoiRange s) else .ok v

/-- Model of `strconv.ParseInt(s, 10, 64)` as used by entity resolution:
`some` value on success, `none` on any error. -/
def goParseInt64 (s : String) : Option Int :=
  match goAtoi s with
  | .ok v => some v
  | .error _ => none

/-- Model of `strconv.ParseBool`: exactly the literals Go accepts. -/
def goParseBool (s : String) : Except CoercionError Bool :=
  if s = "1" || s = "t" || s = "T" || s = "TRUE" || s = "true" || s = "True" then .ok true
  else if s = "0" || s = "f" || s = "F" || s = "FALSE" || s = "false" || s = "False" then
    .ok false
  else .error (.boolSyntax s)

/-- Nonempty all-digit run. -/
def decDigits (l : List Char) : Bool := !l.isEmpty && l.all isDigitCh

/-- Mantissa of a decimal float literal: `digits`, `digits.digits`,
`digits.` or `.digits`. -/
def floatMantOk (l : List Char) : Bool :=
  match (String.mk l).split (fun c => c = '.') with
  | [a] => decDigits a.data
  | [a, b] =>
    (decDigits a.data || a = "") && (decDigits b.data || b = "") && !(a = "" && b = "")
  | _ => false

/-- Exponent part of a float literal (after `e`/`E`). -/
def floatExpOk (l : List Char) : Bool :=
  match l with
  | '+' :: r => decDigits r
  | '-' :: r => decDigits r
  | r => decDigits r

/-- Model of the token syntax accepted by `strconv.ParseFloat(s, 64)`:
optional sign, then `inf`/`infinity`/`nan` (case-insensitive) or a decimal
mantissa with optional exponent.  (Go additionally accepts hexadecimal
floats and underscore digit separators; no claim in this development
exercises float coercion, so those forms are not modelled.) -/
def goFloatTokenOk (s : String) : Bool :=
  let l : List Char :=
    match s.data with
    | '+' :: r => r
    | '-' :: r => r
    | l => l
  let low := l.map Char.toLower
  if low = "inf".data || low = "infinity".data || low = "nan".data then true
  else
    match (String.mk l).split (fun c => c = 'e' || c = 'E') with
    | [m] => floatMantOk m.data
    | [m, e] => floatMantOk m.data && floatExpOk e.data
    | _ => false

/-- Go `float64` values, represented opaquely: `zero` is the zero value of
the type, and a successfully parsed literal is kept as the accepted text.
No property verified here depends on float arithmetic or float equality. -/
inductive GoFloat
  | zero
  | lit (s : String)
deriving DecidableEq, Repr

/-- Model of `strconv.ParseFloat(s, 64)` at the precision this development
needs: syntax acceptance is modelled, the numeric value is kept opaque. -/
def goParseFloat (s : String) : Except CoercionError GoFloat :=
  if goFloatTokenOk s then .ok (.lit s) else .error (.floatSyntax s)

/-- `hdur.Duration` values, represented opaquely: `zero` is the zero value
(`hdur.Duration{}`), and a successfully parsed literal is kept as text. -/
inductive HdurDuration
  | zero
  | lit (s : String)
deriving DecidableEq, Repr

/-- Units accepted by the `hdur` duration grammar. -/
def hdurUnitOk (u : String) : Bool :=
  u = "ns" || u = "us" || u = "ms" || u = "s" || u = "m" || u = "h" || u = "d" ||
  u = "w" || u = "mo" || u = "y" ||
  u = "second" || u = "seconds" || u = "minute" || u = "minutes" ||
  u = "hour" || u = "hours" || u = "day" || u = "days" ||
  u = "week" || u = "weeks" || u = "month" || u = "months" ||
  u = "year" || u = "years"

/-- Fuel-indexed recogniser for the `hdur` grammar: one or more
`<integer> <unit>` components, with optional spaces between tokens. -/
def hdurLoop : Nat → List Char → Bool
  | 0, _ => false
  | fuel + 1, l =>
    let l := l.dropWhile (fun c => c = ' ')
    let ds := l.takeWhile isDigitCh
    if ds.isEmpty then false
    else
      let l := (l.drop ds.length).dropWhile (fun c => c = ' ')
      let us := l.takeWhile Char.isAlpha
      if !hdurUnitOk (String.mk us) then false
      else
        let rest := (l.drop us.length).dropWhile (fun c => c = ' ')
        rest.isEmpty || hdurLoop fuel rest

/-- Model of `hdur.ParseDuration` from the library's documented grammar
(sequences of integer counts with unit names).  The parsed value is kept
opaque; no verified property depends on duration arithmetic. -/
def hdurParse (s : String) : Except CoercionError HdurDuration :=
  if hdurLoop (s.data.length + 1) s.data then .ok (.lit s) else .error (.durationErr s)

/-- Go's `unicode.IsSpace` restricted to the ASCII range, as used by
`strings.Fields` and `strings.TrimSpace`. -/
def isSpaceGo (c : Char) : Bool :=
  c = ' ' || c = '\t' || c = '\n' || c = '\x0b' || c = '\x0c' || c = '\r'

/-- Model of `strings.TrimSpace`. -/
def trimSpaceGo (s : String) : String :=
  String.mk (((s.data.dropWhile isSpaceGo).reverse.dropWhile isSpaceGo).reverse)

/-- Accumulator pass of `strings.Fields`: collect maximal runs of
non-space characters. -/
def fieldsAux : List Char → List Char → List String
  | [], acc => if acc.isEmpty then [] else [String.mk acc.reverse]
  | c :: cs, acc =>
    if isSpaceGo c then
      if acc.isEmpty then fieldsAux cs []
      else String.mk acc.reverse :: fieldsAux cs []
    else fieldsAux cs (c :: acc)

/-- Model of `strings.Fields`: the maximal runs of non-space characters. -/
def fieldsGo (s : String) : List String := fieldsAux s.data []

/-- Model of `strings.HasPrefix`, computed on character lists. -/
def strStartsWith (s pre : String) : Bool := pre.data.isPrefixOf s.data

/-- Model of `strings.TrimPrefix`: drop `pre` once if it leads `s`. -/
def dropPfx (s pre : String) : String :=
  if strStartsWith s pre then String.mk (s.data.drop pre.data.length) else s

/-- A Telegram message (`*types.Message`), reduced to the one field the
parser inspects: its optional replied-to message. -/
inductive MessageGo
  | mk (replyToMessage : Option MessageGo)

/-- The replied-to message of a message. -/
def MessageGo.replyToMessage : MessageGo → Option MessageGo
  | .mk r => r

/-- Values stored behind Go's `interface{}` slots (`ParsedArgument.Value`
and `ArgumentDefinition.Default`); `nilv` is the Go `nil` interface. -/
inductive GoValue
  | str (s : String)
  | int (n : Int)
  | float (f : GoFloat)
  | bool (b : Bool)
  | duration (d : HdurDuration)
  | nilv
deriving DecidableEq, Repr

/-- The distinct error messages the two `ParseArguments` variants can put
in an `ArgumentError` (one constructor per distinct message format in the
source; both variants share this one type). -/
inductive ErrMsg
  | coercion (e : CoercionError)            -- `err.Error()` of a failed coercion (Scan variant)
  | requiredPositionalMissing               -- "required positional argument missing" (Scan)
  | requiredNamedMissing                    -- "required named argument missing" (Scan)
  | unknownNamedArgument                    -- "unknown named argument" (Fields)
  | noValueProvided                         -- "no value provided" (Fields)
  | invalidValue (e : CoercionError)        -- "invalid value: %v" (Fields)
  | replyRequired                           -- "reply to a message is required" (Fields)
  | requiredNotProvided                     -- "required argument not provided" (Fields)
deriving DecidableEq, Repr

/-- `ArgumentError` (shared by both variants in the source). -/
structure ArgumentError where
  Argument : String
  Message : ErrMsg
deriving DecidableEq, Repr

/-!
## The character-scanning parser variant (namespace `Scan`)

Direct translation of the first `command` package in the source: argument
schema types, the rune-by-rune `ParseArguments` scanner (with quoted and
escaped values and a trailing `Rest` capture), typed accessors, and entity
resolution.
-/

namespace Scan

/-- `ArgumentType` of the character-scanning variant. -/
inductive ArgumentType
  | string | int | float | bool | entity | reply | duration
deriving DecidableEq, Repr

/-- `ArgumentKind` of the character-scanning variant. -/
inductive ArgumentKind
  | positional | named
deriving DecidableEq, Repr

/-- `ArgumentDefinition` (the Go field `Type` is called `type'` here since
`Type` is a Lean keyword; `Default` is the `interface{}` default value, with
`GoValue.nilv` standing for Go `nil`). -/
structure ArgumentDefinition where
  Name : String
  type' : ArgumentType
  Kind : ArgumentKind
  Required : Bool
  Default : GoValue
  Description : String
deriving DecidableEq, Repr

/-- `ParsedArgument`. -/
structure ParsedArgument where
  Name : String
  Value : GoValue
  RawValue : String
deriving DecidableEq, Repr

/-- `Arguments` of the character-scanning variant.  The Go `map[string]`
is modelled as an association list with unique keys. -/
structure Arguments where
  Positional : List ParsedArgument
  Named : List (String × ParsedArgument)
  Rest : Option ParsedArgument
  Raw : String
  Reply : Option MessageGo

/-- Map lookup for the `Named` association list. -/
def lookupNamed : List (String × ParsedArgument) → String → Option ParsedArgument
  | [], _ => none
  | (k', v') :: rest, k => if k' = k then some v' else lookupNamed rest k

/-- `Arguments.Get`: the value of a named argument, Go `nil` if absent. -/
def Arguments.Get (a : Arguments) (name : String) : GoValue :=
  match lookupNamed a.Named name with
  | some arg => arg.Value
  | none => .nilv

/-- `Arguments.GetString`: string value of a named argument, else `""`. -/
def Arguments.GetString (a : Arguments) (name : String) : String :=
  match a.Get name with
  | .str s => s
  | _ => ""

/-- `Arguments.GetInt`: int value of a named argument, else `0`. -/
def Arguments.GetInt (a : Arguments) (name : String) : Int :=
  match a.Get name with
  | .int n => n
  | _ => 0

/-- `Arguments.GetFloat`: float value of a named argument, else `0`. -/
def Arguments.GetFloat (a : Arguments) (name : String) : GoFloat :=
  match a.Get name with
  | .float f => f
  | _ => .zero

/-- `Arguments.GetBool`: bool value of a named argument, else `false`. -/
def Arguments.GetBool (a : Arguments) (name : String) : Bool :=
  match a.Get name with
  | .bool b => b
  | _ => false

/-- `Arguments.GetDuration`: duration value, else `hdur.Duration{}`. -/
def Arguments.GetDuration (a : Arguments) (name : String) : HdurDuration :=
  match a.Get name with
  | .duration d => d
  | _ => .zero

/-- `Arguments.GetEntity`: the raw value of a named argument, else `""`. -/
def Arguments.GetEntity (a : Arguments) (name : String) : String :=
  match lookupNamed a.Named name with
  | some arg => arg.RawValue
  | none => ""

/-- `Arguments.GetPositionalEntity`: raw value at a positional index
(Go `int`, so negative indices are also out of range), else `""`. -/
def Arguments.GetPositionalEntity (a : Arguments) (index : Int) : String :=
  if 0 ≤ index ∧ index < (a.Positional.length : Int) then
    (a.Positional.getD index.toNat ⟨"", .nilv, ""⟩).RawValue
  else ""

/-- `Arguments.GetPositional`: the value at a positional index, Go `nil`
when the index is out of range or the stored value is `nil`. -/
def Arguments.GetPositional (a : Arguments) (index : Int) : GoValue :=
  if 0 ≤ index ∧ index < (a.Positional.length : Int) then
    let v := (a.Positional.getD index.toNat ⟨"", .nilv, ""⟩).Value
    if v ≠ .nilv then v else .nilv
  else .nilv

/-- `Arguments.GetPositionalString`. -/
def Arguments.GetPositionalString (a : Arguments) (index : Int) : String :=
  match a.GetPositional index with
  | .str s => s
  | _ => ""

/-- `Arguments.GetPositionalInt`. -/
def Arguments.GetPositionalInt (a : Arguments) (index : Int) : Int :=
  match a.GetPositional index with
  | .int n => n
  | _ => 0

/-- `Arguments.GetPositionalFloat`. -/
def Arguments.GetPositionalFloat (a : Arguments) (index : Int) : GoFloat :=
  match a.GetPositional index with
  | .float f => f
  | _ => .zero

/-- `Arguments.GetPositionalBool`. -/
def Arguments.GetPositionalBool (a : Arguments) (index : Int) : Bool :=
  match a.GetPositional index with
  | .bool b => b
  | _ => false

/-- `Arguments.GetPositionalDuration`. -/
def Arguments.GetPositionalDuration (a : Arguments) (index : Int) : HdurDuration :=
  match a.GetPositional index with
  | .duration d => d
  | _ => .zero

/-- `Arguments.GetRest`: the remaining unparsed text, else `""`. -/
def Arguments.GetRest (a : Arguments) : String :=
  match a.Rest with
  | some r => r.RawValue
  | none => ""

/-- `Arguments.GetRestString` (alias of `GetRest`). -/
def Arguments.GetRestString (a : Arguments) : String :=
  a.GetRest

/-- A resolved chat object (`types.ChatObject`): either a `*types.User` or
some other kind of chat (group/channel), which the type assertion
`chat.(*types.User)` rejects. -/
inductive ChatGo
  | user (u : Int)        -- a user, identified here by an opaque integer id
  | otherChat
deriving DecidableEq, Repr

/-- An input peer (`tg.InputPeerClass`); only its non-nilness is inspected. -/
inductive PeerGo
  | somePeer
deriving DecidableEq, Repr

/-- The slice of `*ext.Context` entity resolution consults:
`ResolveUsername` (`none` models a non-nil error) and
`functions.GetInputPeerClassFromId` over the peer storage. -/
structure ExtContext where
  resolveUsername : String → Option ChatGo
  getInputPeerFromId : Int → Option PeerGo

/-- The errors of the resolution functions (`fmt.Errorf` formats). -/
inductive ResolveErr
  | couldNotResolve (raw : String)          -- "could not resolve entity: %s"
  | entityArgNotFound (name : String)       -- "entity argument not found: %s"
  | entityArgNotFoundAt (index : Int)       -- "entity argument not found at index: %d"
deriving DecidableEq, Repr

/-- `Arguments.ResolveEntity`: username resolution first (one leading `@`
stripped), then numeric-id resolution, as the Go pair
`(*types.User, error)`. -/
def Arguments.ResolveEntity (a : Arguments) (ctx : ExtContext) (name : String) :
    Option Int × Option ResolveErr :=
  let raw := a.GetEntity name
  if raw ≠ "" then
    let username := dropPfx raw "@"
    match ctx.resolveUsername username with
    | some (.user u) => (some u, none)
    | _ =>
      match goParseInt64 raw with
      | some id =>
        match ctx.getInputPeerFromId id with
        | some _ =>
          match ctx.resolveUsername (toString id) with
          | some (.user u) => (some u, none)
          | _ => (none, some (.couldNotResolve raw))
        | none => (none, some (.couldNotResolve raw))
      | none => (none, some (.couldNotResolve raw))
  else (none, some (.entityArgNotFound name))

/-- `Arguments.ResolvePositionalEntity`: the same two-step fallback on a
positional entity argument. -/
def Arguments.ResolvePositionalEntity (a : Arguments) (ctx : ExtContext)
    (index : Int) : Option Int × Option ResolveErr :=
  let raw := a.GetPositionalEntity index
  if raw ≠ "" then
    let username := dropPfx raw "@"
    match ctx.resolveUsername username with
    | some (.user u) => (some u, none)
    | _ =>
      match goParseInt64 raw with
      | some id =>
        match ctx.getInputPeerFromId id with
        | some _ =>
          match ctx.resolveUsername (toString id) with
          | some (.user u) => (some u, none)
          | _ => (none, some (.couldNotResolve raw))
        | none => (none, some (.couldNotResolve raw))
      | none => (none, some (.couldNotResolve raw))
  else (none, some (.entityArgNotFoundAt index))

/-- `Arguments.ResolveRestEntity`: the same two-step fallback on the Rest
capture; an empty Rest returns `(nil, nil)`. -/
def Arguments.ResolveRestEntity (a : Arguments) (ctx : ExtContext) :
    Option Int × Option ResolveErr :=
  let raw := a.GetRest
  if raw = "" then (none, none)
  else
    let username := dropPfx raw "@"
    match ctx.resolveUsername username with
    | some (.user u) => (some u, none)
    | _ =>
      match goParseInt64 raw with
      | some id =>
        match ctx.getInputPeerFromId id with
        | some _ =>
          match ctx.resolveUsername (toString id) with
          | some (.user u) => (some u, none)
          | _ => (none, some (.couldNotResolve raw))
        | none => (none, some (.couldNotResolve raw))
      | none => (none, some (.couldNotResolve raw))

/-- `parseValue` of the character-scanning variant. -/
def parseValue (value : String) (argType : ArgumentType) : Except CoercionError GoValue :=
  match argType with
  | .string => .ok (.str value)
  | .int =>
    match goAtoi value with
    | .ok n => .ok (.int n)
    | .error e => .error e
  | .float =>
    match goParseFloat value with
    | .ok f => .ok (.float f)
    | .error e => .error e
  | .bool =>
    match goParseBool value with
    | .ok b => .ok (.bool b)
    | .error e => .error e
  | .entity => .ok (.str value)
  | .reply => .ok .nilv
  | .duration =>
    match hdurParse value with
    | .ok d => .ok (.duration d)
    | .error e => .error e

/-- Map insertion for the `Named` association list (Go map assignment:
replace an existing key or append a new one). -/
def insertNamed : List (String × ParsedArgument) → String → ParsedArgument →
    List (String × ParsedArgument)
  | [], k, v => [(k, v)]
  | (k', v') :: rest, k, v =>
    if k' = k then (k, v) :: rest else (k', v') :: insertNamed rest k v


/-- The count of `Positional`-kind definitions (the `positionalCount` loop). -/
def positionalCount : List ArgumentDefinition → Nat
  | [] => 0
  | d :: ds => (if d.Kind = .positional then 1 else 0) + positionalCount ds

/-- First definition with `Kind == KindNamed && Name == name`. -/
def findNamedDef : List ArgumentDefinition → String → Option ArgumentDefinition
  | [], _ => none
  | d :: ds, name =>
    if d.Kind = .named ∧ d.Name = name then some d else findNamedDef ds name

/-- The positional-definition search of the source, condition included
verbatim: the first definition with
`d.Kind == KindPositional && positionalIndex == len(args.Positional)`
(note the condition does not depend on the definition's index). -/
def findPositionalDef : List ArgumentDefinition → Nat → Nat → Option ArgumentDefinition
  | [], _, _ => none
  | d :: ds, positionalIndex, boundCount =>
    if d.Kind = .positional ∧ positionalIndex = boundCount then some d
    else findPositionalDef ds positionalIndex boundCount

/-- Length of the leading run of `' '` characters (the whitespace-skip
loops of the scanner skip only literal spaces). -/
def spaceRun : List Char → Nat
  | [] => 0
  | c :: rest => if c = ' ' then spaceRun rest + 1 else 0

/-- `for pos < length && runes[pos] == ' ' { pos++ }`. -/
def skipSpaces (runes : List Char) (pos : Nat) : Nat :=
  pos + spaceRun (runes.drop pos)

/-- The quoted-value loop: scan up to (not including) the next unescaped
quote; a backslash with a following character drops the backslash and takes
that character literally.  Returns the content characters and the number of
input characters consumed. -/
def quotedLoop : List Char → List Char × Nat
  | [] => ([], 0)
  | '"' :: _ => ([], 0)
  | '\\' :: c :: rest =>
    let r := quotedLoop rest
    (c :: r.1, r.2 + 2)
  | c :: rest =>
    let r := quotedLoop rest
    (c :: r.1, r.2 + 1)

/-- The shared value-reading block of the scanner (it appears verbatim at
both the named-argument and the positional sites in the source): a quoted
value when the current character is `"`, otherwise a bare run of
non-space characters.  Returns the value and the new scan position. -/
def readValue (runes : List Char) (pos : Nat) : String × Nat :=
  if pos < runes.length ∧ runes.getD pos ' ' = '"' then
    let rest := runes.drop (pos + 1)
    let r := quotedLoop rest
    let closing := if pos + 1 + r.2 < runes.length then 1 else 0
    (String.mk r.1, pos + 1 + r.2 + closing)
  else
    let cs := (runes.drop pos).takeWhile (fun c => c ≠ ' ')
    (String.mk cs, pos + cs.length)

/-- Scanner state: scan position plus the accumulating argument bag. -/
structure ScanState where
  pos : Nat
  positionalIndex : Nat
  Positional : List ParsedArgument
  Named : List (String × ParsedArgument)
  Rest : Option ParsedArgument
deriving Repr

/-- Outcome of one iteration of the main scan loop. -/
inductive StepRes
  | err (e : ArgumentError)   -- `return nil, &ArgumentError{...}`
  | done (st : ScanState)     -- `break`, or the loop condition failing
  | next (st : ScanState)     -- `continue`, or falling off the iteration
deriving Repr

/-- The "Try to parse as positional" block of the loop body (also reached
when a `-` token matched no named definition and the position was reset). -/
def positionalStep (runes : List Char) (defs : List ArgumentDefinition)
    (st : ScanState) : StepRes :=
  if st.pos < runes.length then
    if st.positionalIndex ≥ positionalCount defs then
      -- all positional slots filled: capture the trimmed remainder as Rest
      let pos := skipSpaces runes st.pos
      if pos < runes.length then
        let rest := trimSpaceGo (String.mk (runes.drop pos))
        if rest ≠ "" then
          .done { st with pos := pos,
                          Rest := some ⟨"rest", GoValue.str rest, rest⟩ }
        else .done { st with pos := pos }
      else .done { st with pos := pos }
    else
      match findPositionalDef defs st.positionalIndex st.Positional.length with
      | some d =>
        let v := readValue runes st.pos
        match parseValue v.1 d.type' with
        | .error ce => .err ⟨d.Name, .coercion ce⟩
        | .ok pv =>
          .next { st with pos := v.2,
                          Positional := st.Positional ++ [⟨d.Name, pv, v.1⟩],
                          positionalIndex := st.positionalIndex + 1 }
      | none => .next st
  else .next st

/-- The flag-name read loop: characters up to a space, newline or `=`. -/
def flagNameChars (runes : List Char) (pos : Nat) : List Char :=
  (runes.drop pos).takeWhile (fun c => ¬ (c = ' ' ∨ c = '\n' ∨ c = '='))

/-- "Skip equals sign or whitespace if present" after a flag name. -/
def skipEq (runes : List Char) (pos : Nat) : Nat :=
  if pos < runes.length ∧
      (runes.getD pos ' ' = '=' ∨ runes.getD pos ' ' = ' ' ∨
       runes.getD pos ' ' = '\n')
    then pos + 1 else pos

/-- One iteration of the main scan loop of `ParseArguments`: skip spaces,
try a named flag (`-` preceded by start-of-input or a space), otherwise
fall through to the positional block. -/
def stepScan (runes : List Char) (defs : List ArgumentDefinition)
    (st : ScanState) : StepRes :=
  let pos := skipSpaces runes st.pos
  if pos ≥ runes.length then .done { st with pos := pos }
  else
    if runes.getD pos ' ' = '-' ∧ (pos = 0 ∨ runes.getD (pos - 1) ' ' = ' ') then
      let start := pos
      let name := String.mk (flagNameChars runes (start + 1))
      match findNamedDef defs name with
      | some d =>
        let pos := skipEq runes (start + 1 + (flagNameChars runes (start + 1)).length)
        if d.type' = .bool then
          -- boolean flags are presence-only: bind true, consume no value
          .next { st with pos := pos,
                          Named := insertNamed st.Named d.Name
                            ⟨d.Name, GoValue.bool true, "true"⟩ }
        else
          let v := readValue runes pos
          match parseValue v.1 d.type' with
          | .error ce => .err ⟨d.Name, .coercion ce⟩
          | .ok pv =>
            .next { st with pos := v.2,
                            Named := insertNamed st.Named d.Name ⟨d.Name, pv, v.1⟩ }
      | none =>
        -- not a valid flag: re-scan from the same position as a positional
        positionalStep runes defs { st with pos := start }
    else positionalStep runes defs { st with pos := pos }

/-- The main scan loop, with explicit fuel (`none` = fuel ran out; the
termination theorem shows `runes.length + 1` fuel always suffices). -/
def scanLoop (runes : List Char) (defs : List ArgumentDefinition) :
    Nat → ScanState → Option (Except ArgumentError ScanState)
  | 0, _ => none
  | fuel + 1, st =>
    if st.pos < runes.length then
      match stepScan runes defs st with
      | .err e => some (.error e)
      | .done st' => some (.ok st')
      | .next st' => scanLoop runes defs fuel st'
    else some (.ok st)

/-- The required-argument validation pass of the character-scanning variant
(note: it never consults `Default`). -/
def requiredCheck (st : ScanState) : List ArgumentDefinition → Option ArgumentError
  | [] => none
  | d :: ds =>
    if d.Required then
      if d.Kind = .positional then
        if st.Positional.any (fun a => a.Name = d.Name) then requiredCheck st ds
        else some ⟨d.Name, .requiredPositionalMissing⟩
      else
        match lookupNamed st.Named d.Name with
        | some _ => requiredCheck st ds
        | none => some ⟨d.Name, .requiredNamedMissing⟩
    else requiredCheck st ds

/-- Initial scanner state: position after the initial whitespace skip. -/
def initState (runes : List Char) : ScanState :=
  ⟨skipSpaces runes 0, 0, [], [], none⟩

/-- `ParseArguments` of the character-scanning variant.  The Go signature
returns the pair `(*Arguments, error)`; every return site is either
`(args, nil)` or `(nil, &ArgumentError{...})`, mirrored here as a pair of
options.  The fuel `runes.length + 1` always suffices (see the termination
theorem), so the `none` fuel branch is unreachable. -/
def ParseArguments (text : String) (defs : List ArgumentDefinition)
    (msg : Option MessageGo) : Option Arguments × Option ArgumentError :=
  let runes := text.data
  match scanLoop runes defs (runes.length + 1) (initState runes) with
  | none => (none, none)
  | some (.error e) => (none, some e)
  | some (.ok st) =>
    match requiredCheck st defs with
    | some e => (none, some e)
    | none => (some ⟨st.Positional, st.Named, st.Rest, text, msg⟩, none)

end Scan

/-!
## The whitespace-splitting parser variant (namespace `Fields`)

Direct translation of the second `command` package in the source:
`strings.Fields`-based scanning, a `Variadic` collector, optional inline
values after boolean flags, default binding during required-argument
validation, and reply-context validation.
-/

namespace Fields

/-- `ArgumentType` of the whitespace-splitting variant (no `Duration`). -/
inductive ArgumentType
  | string | int | float | bool | entity | reply
deriving DecidableEq, Repr

/-- `ArgumentKind` of the whitespace-splitting variant. -/
inductive ArgumentKind
  | positional | named | variadic
deriving DecidableEq, Repr

/-- `ArgumentDefinition` (field `Type` renamed `type'`; `Default` is the
`interface{}` default, `GoValue.nilv` standing for Go `nil`). -/
structure ArgumentDefinition where
  Name : String
  type' : ArgumentType
  Kind : ArgumentKind
  Required : Bool
  Default : GoValue
  Description : String
deriving DecidableEq, Repr

/-- `ParsedArgument`. -/
structure ParsedArgument where
  Name : String
  Value : GoValue
  RawValue : String
deriving DecidableEq, Repr

/-- `Arguments` of the whitespace-splitting variant. -/
structure Arguments where
  Positional : List ParsedArgument
  Named : List (String × ParsedArgument)
  Variadic : List ParsedArgument
  Raw : String
  Reply : Option MessageGo

/-- Map insertion for the `Named` association list. -/
def insertNamed : List (String × ParsedArgument) → String → ParsedArgument →
    List (String × ParsedArgument)
  | [], k, v => [(k, v)]
  | (k', v') :: rest, k, v =>
    if k' = k then (k, v) :: rest else (k', v') :: insertNamed rest k v

/-- Map lookup for the `Named` association list. -/
def lookupNamed : List (String × ParsedArgument) → String → Option ParsedArgument
  | [], _ => none
  | (k', v') :: rest, k => if k' = k then some v' else lookupNamed rest k

/-- `parseValue` of the whitespace-splitting variant. -/
def parseValue (value : String) (argType : ArgumentType) : Except CoercionError GoValue :=
  match argType with
  | .string => .ok (.str value)
  | .int =>
    match goAtoi value with
    | .ok n => .ok (.int n)
    | .error e => .error e
  | .float =>
    match goParseFloat value with
    | .ok f => .ok (.float f)
    | .error e => .error e
  | .bool =>
    match goParseBool value with
    | .ok b => .ok (.bool b)
    | .error e => .error e
  | .entity => .ok (.str value)
  | .reply => .ok .nilv

/-- First definition with `Kind == KindNamed && Name == name`. -/
def findNamedDef : List ArgumentDefinition → String → Option ArgumentDefinition
  | [], _ => none
  | d :: ds, name =>
    if d.Kind = .named ∧ d.Name = name then some d else findNamedDef ds name

/-- State of the token pass: the Go `pos` counter plus the accumulating
collections and the `namedFound` set. -/
structure FState where
  pos : Nat
  Positional : List ParsedArgument
  Named : List (String × ParsedArgument)
  Variadic : List ParsedArgument
  namedFound : List String
deriving Repr

/-- The "Handle positional and variadic args" inner loop of the source,
condition structure kept verbatim: scan the definitions in order and act on
the first that is `Positional` while `pos == 0`, or `Variadic`. -/
def posVarStep (part : String) (st : FState) :
    List ArgumentDefinition → Except ArgumentError FState
  | [] => .ok st
  | d :: ds =>
    if d.Kind = .positional ∧ st.pos = 0 then
      match parseValue part d.type' with
      | .error ce => .error ⟨d.Name, .invalidValue ce⟩
      | .ok v =>
        .ok { st with Positional := st.Positional ++ [⟨d.Name, v, part⟩],
                      pos := st.pos + 1 }
    else if d.Kind = .variadic then
      match parseValue part d.type' with
      | .error ce => .error ⟨d.Name, .invalidValue ce⟩
      | .ok v => .ok { st with Variadic := st.Variadic ++ [⟨d.Name, v, part⟩] }
    else posVarStep part st ds

/-- The token pass over `strings.Fields(text)`.  The manual index `i` with
its in-loop `i++` skips is modelled by recursing on the remaining parts. -/
def parseParts (defs : List ArgumentDefinition) :
    List String → FState → Except ArgumentError FState
  | [], st => .ok st
  | part :: rest, st =>
    if strStartsWith part "-" then
      let name := dropPfx part "-"
      match findNamedDef defs name with
      | none => .error ⟨name, .unknownNamedArgument⟩
      | some d =>
        if d.type' = .bool then
          -- presence implies true unless the next part parses as a bool value
          match rest with
          | next :: rest' =>
            if ¬ strStartsWith next "-" then
              match parseValue next d.type' with
              | .ok v =>
                parseParts defs rest'
                  { st with Named := insertNamed st.Named name ⟨name, v, next⟩,
                            namedFound := name :: st.namedFound }
              | .error _ =>
                -- the index is not advanced here: the next part is re-examined
                parseParts defs (next :: rest')
                  { st with Named := insertNamed st.Named name
                              ⟨name, GoValue.bool true, "true"⟩,
                            namedFound := name :: st.namedFound }
            else
              parseParts defs (next :: rest')
                { st with Named := insertNamed st.Named name
                            ⟨name, GoValue.bool true, "true"⟩,
                          namedFound := name :: st.namedFound }
          | [] =>
            parseParts defs []
              { st with Named := insertNamed st.Named name
                          ⟨name, GoValue.bool true, "true"⟩,
                        namedFound := name :: st.namedFound }
        else
          -- non-boolean named arguments require a value
          match rest with
          | [] => .error ⟨name, .noValueProvided⟩
          | next :: rest' =>
            match parseValue next d.type' with
            | .error ce => .error ⟨name, .invalidValue ce⟩
            | .ok v =>
              parseParts defs rest'
                { st with Named := insertNamed st.Named name ⟨name, v, next⟩,
                          namedFound := name :: st.namedFound }
    else
      match posVarStep part st defs with
      | .error e => .error e
      | .ok st' => parseParts defs rest st'
termination_by parts _ => parts.length
decreasing_by all_goals simp <;> omega

/-- State of the validation pass (the bag under mutation). -/
structure VState where
  Positional : List ParsedArgument
  Named : List (String × ParsedArgument)
  Variadic : List ParsedArgument
  Reply : Option MessageGo
  namedFound : List String

/-- The "Check required arguments and handle reply type" pass, translated
with its source order intact: for a `Reply`-typed definition the
required-check reads `args.Reply` BEFORE the reply context is bound into
it. -/
def validateDefs (msg : Option MessageGo) (st : VState) :
    List ArgumentDefinition → Except ArgumentError VState
  | [] => .ok st
  | d :: ds =>
    if d.type' = .reply then
      if d.Required && st.Reply.isNone then .error ⟨d.Name, .replyRequired⟩
      else
        let st :=
          match msg with
          | some m =>
            match m.replyToMessage with
            | some r => { st with Reply := some r }
            | none => st
          | none => st
        validateDefs msg st ds
    else if d.Required then
      if d.Kind = .named then
        if d.Name ∈ st.namedFound then validateDefs msg st ds
        else if d.Default ≠ .nilv then
          validateDefs msg
            { st with Named := insertNamed st.Named d.Name ⟨d.Name, d.Default, ""⟩ } ds
        else .error ⟨d.Name, .requiredNotProvided⟩
      else if d.Kind = .positional ∧ st.Positional.length = 0 then
        if d.Default ≠ .nilv then
          validateDefs msg
            { st with Positional := st.Positional ++ [⟨d.Name, d.Default, ""⟩] } ds
        else .error ⟨d.Name, .requiredNotProvided⟩
      else validateDefs msg st ds
    else validateDefs msg st ds

/-- `ParseArguments` of the whitespace-splitting variant, as the Go pair
`(*Arguments, error)` of options. -/
def ParseArguments (text : String) (defs : List ArgumentDefinition)
    (msg : Option MessageGo) : Option Arguments × Option ArgumentError :=
  let parts := fieldsGo text
  match parseParts defs parts ⟨0, [], [], [], []⟩ with
  | .error e => (none, some e)
  | .ok st =>
    match validateDefs msg ⟨st.Positional, st.Named, st.Variadic, none, st.namedFound⟩ defs with
    | .error e => (none, some e)
    | .ok v => (some ⟨v.Positional, v.Named, v.Variadic, text, v.Reply⟩, none)

end Fields

/-! ## Lemmas about the character-scanning loop -/

namespace Scan

theorem getD_drop (l : List Char) (p n : Nat) :
    (l.drop p).getD n ' ' = l.getD (p + n) ' ' := by
  induction p generalizing l with
  | zero => simp
  | succ p ih =>
    cases l with
    | nil => simp
    | cons c cs =>
      rw [show p + 1 + n = (p + n) + 1 from by omega]
      simp only [List.drop_succ_cons, ih cs, List.getD_cons_succ]

theorem spaceRun_le (l : List Char) : spaceRun l ≤ l.length := by
  induction l with
  | nil => simp [spaceRun]
  | cons c cs ih =>
    simp only [spaceRun, List.length_cons]
    split <;> omega

theorem spaceRun_getD (l : List Char) (h : spaceRun l < l.length) :
    l.getD (spaceRun l) ' ' ≠ ' ' := by
  induction l with
  | nil => simp at h
  | cons c cs ih =>
    by_cases hc : c = ' '
    · simp only [spaceRun, hc, if_pos rfl] at h ⊢
      simpa using ih (by simpa using h)
    · simpa [spaceRun, hc] using hc

theorem skipSpaces_ge (runes : List Char) (pos : Nat) : pos ≤ skipSpaces runes pos :=
  Nat.le_add_right _ _

theorem skipSpaces_getD (runes : List Char) (pos : Nat)
    (h : skipSpaces runes pos < runes.length) :
    runes.getD (skipSpaces runes pos) ' ' ≠ ' ' := by
  have hlen : spaceRun (runes.drop pos) < (runes.drop pos).length := by
    have := List.length_drop pos runes
    simp only [skipSpaces] at h
    omega
  have := spaceRun_getD (runes.drop pos) hlen
  simpa [skipSpaces, getD_drop] using this

theorem readValue_ge (runes : List Char) (pos : Nat) :
    pos ≤ (readValue runes pos).2 := by
  simp only [readValue]
  split <;> simp <;> omega

theorem readValue_advance (runes : List Char) (pos : Nat)
    (hpos : pos < runes.length) (hc : runes.getD pos ' ' ≠ ' ') :
    pos < (readValue runes pos).2 := by
  simp only [readValue]
  split
  · simp; omega
  · have hdrop : runes.drop pos = runes.getD pos ' ' :: runes.drop (pos + 1) := by
      have h1 : runes.drop pos = runes[pos] :: runes.drop (pos + 1) :=
        List.drop_eq_getElem_cons hpos
      have h2 : runes.getD pos ' ' = runes[pos] := List.getD_eq_getElem runes ' ' hpos
      rw [h2, h1]
    simp only [hdrop, List.takeWhile_cons]
    rw [if_pos (by simpa using hc)]
    simp

theorem findNamedDef_spec {defs : List ArgumentDefinition} {name : String}
    {d : ArgumentDefinition} (h : findNamedDef defs name = some d) :
    d ∈ defs ∧ d.Kind = .named ∧ d.Name = name := by
  induction defs with
  | nil => simp [findNamedDef] at h
  | cons d' ds ih =>
    simp only [findNamedDef] at h
    split at h
    · rename_i hcond
      cases h
      exact ⟨List.mem_cons_self _ _, hcond.1, hcond.2⟩
    · have := ih h
      exact ⟨List.mem_cons_of_mem _ this.1, this.2⟩

theorem findPositionalDef_spec {defs : List ArgumentDefinition} {pi bc : Nat}
    {d : ArgumentDefinition} (h : findPositionalDef defs pi bc = some d) :
    d ∈ defs ∧ d.Kind = .positional := by
  induction defs with
  | nil => simp [findPositionalDef] at h
  | cons d' ds ih =>
    simp only [findPositionalDef] at h
    split at h
    · rename_i hcond
      cases h
      exact ⟨List.mem_cons_self _ _, hcond.1⟩
    · have := ih h
      exact ⟨List.mem_cons_of_mem _ this.1, this.2⟩

theorem findPositionalDef_isSome (defs : List ArgumentDefinition) {pi : Nat}
    (hlt : pi < positionalCount defs) :
    ∃ d, findPositionalDef defs pi pi = some d := by
  induction defs with
  | nil => simp [positionalCount] at hlt
  | cons d' ds ih =>
    simp only [findPositionalDef]
    by_cases hk : d'.Kind = ArgumentKind.positional
    · exact ⟨d', by rw [if_pos ⟨hk, trivial⟩]⟩
    · rw [if_neg (by simp [hk])]
      apply ih
      simpa [positionalCount, hk] using hlt

theorem lookupNamed_insertNamed (l : List (String × ParsedArgument))
    (k k' : String) (v : ParsedArgument) :
    lookupNamed (insertNamed l k v) k' =
      if k = k' then some v else lookupNamed l k' := by
  induction l with
  | nil =>
    by_cases h : k = k' <;> simp [insertNamed, lookupNamed, h]
  | cons p rest ih =>
    obtain ⟨k₀, v₀⟩ := p
    simp only [insertNamed]
    by_cases h0 : k₀ = k
    · subst h0
      by_cases h : k₀ = k' <;> simp [lookupNamed, h]
    · rw [if_neg h0]
      by_cases h : k₀ = k'
      · subst h
        have hkk : ¬ k = k₀ := fun he => h0 he.symm
        simp [lookupNamed, hkk]
      · simp [lookupNamed, h, ih]

/-- The loop invariant of the scanner: the positional counter always equals
the number of bound positional arguments (they are incremented together). -/
def Inv (st : ScanState) : Prop := st.positionalIndex = st.Positional.length

theorem skipEq_ge (runes : List Char) (pos : Nat) : pos ≤ skipEq runes pos := by
  simp only [skipEq]
  split <;> omega

theorem positionalStep_next {runes : List Char} {defs : List ArgumentDefinition}
    {st st' : ScanState} (hInv : Inv st) (hpos : st.pos < runes.length)
    (hc : runes.getD st.pos ' ' ≠ ' ')
    (h : positionalStep runes defs st = .next st') :
    Inv st' ∧ st.pos < st'.pos ∧ st'.Named = st.Named := by
  simp only [positionalStep, if_pos hpos] at h
  split at h
  · -- rest-capture branch: all outcomes are .done, contradiction
    split at h
    · split at h
      · simp at h
      · simp at h
    · simp at h
  · rename_i hlt
    have hlt' : st.positionalIndex < positionalCount defs := by omega
    obtain ⟨d, hd⟩ := findPositionalDef_isSome defs hlt'
    rw [← hInv] at h
    rw [hd] at h
    split at h
    · rename_i d' hpv
      split at h
      · simp at h
      · cases h
        refine ⟨?_, ?_, rfl⟩
        · simpa [Inv] using hInv
        · exact readValue_advance runes st.pos hpos hc
    · rename_i hpv
      simp at hpv

theorem stepScan_next {runes : List Char} {defs : List ArgumentDefinition}
    {st st' : ScanState} (hInv : Inv st)
    (h : stepScan runes defs st = .next st') :
    Inv st' ∧ st.pos < st'.pos := by
  simp only [stepScan] at h
  split at h
  · simp at h
  · rename_i hlen
    have hlen' : skipSpaces runes st.pos < runes.length := by omega
    have hge := skipSpaces_ge runes st.pos
    split at h
    · -- a `-` flag candidate
      rename_i hdash
      split at h
      · -- a named definition matched
        split at h
        · -- boolean flag: bind true and continue
          cases h
          refine ⟨hInv, ?_⟩
          refine Nat.lt_of_lt_of_le ?_ (skipEq_ge runes _)
          omega
        · -- valued flag: position moves past the consumed value
          split at h
          · simp at h
          · cases h
            refine ⟨hInv, ?_⟩
            refine Nat.lt_of_lt_of_le ?_ (readValue_ge runes _)
            refine Nat.lt_of_lt_of_le ?_ (skipEq_ge runes _)
            omega
      · -- no named definition matched: reset the position and go positional
        have hc : runes.getD (skipSpaces runes st.pos) ' ' ≠ ' ' := by
          rw [hdash.1]; decide
        have := @positionalStep_next runes defs { st with pos := skipSpaces runes st.pos }
          st' hInv hlen' hc h
        exact ⟨this.1, by have := this.2.1; simp at this; omega⟩
    · -- ordinary positional token
      have := @positionalStep_next runes defs { st with pos := skipSpaces runes st.pos }
        st' hInv hlen' (skipSpaces_getD runes st.pos hlen') h
      exact ⟨this.1, by have := this.2.1; simp at this; omega⟩

theorem scanLoop_total (runes : List Char) (defs : List ArgumentDefinition) :
    ∀ fuel st, Inv st → runes.length - st.pos < fuel →
      ∃ r, scanLoop runes defs fuel st = some r := by
  intro fuel
  induction fuel with
  | zero => intro st _ h; omega
  | succ fuel ih =>
    intro st hInv hfuel
    by_cases hpos : st.pos < runes.length
    · rw [scanLoop, if_pos hpos]
      cases hstep : stepScan runes defs st with
      | err e => exact ⟨.error e, rfl⟩
      | done st' => exact ⟨.ok st', rfl⟩
      | next st' =>
        obtain ⟨hInv', hadv⟩ := stepScan_next hInv hstep
        exact ih st' hInv' (by omega)
    · rw [scanLoop, if_neg hpos]
      exact ⟨.ok st, rfl⟩

/-- Generic soundness recursion for the scan loop: a state property `P`
preserved by `.next` steps pushes an error property `Q` (holding of every
error a step can emit from a `P`-state) and a final property `R` (holding
of every `.done` state and of every `P`-state at end of input) through to
the loop's result. -/
theorem scanLoop_sound (runes : List Char) (defs : List ArgumentDefinition)
    (P : ScanState → Prop) (Q : ArgumentError → Prop) (R : ScanState → Prop)
    (hnext : ∀ st st', P st → stepScan runes defs st = .next st' → P st')
    (hdone : ∀ st st', P st → stepScan runes defs st = .done st' → R st')
    (herr : ∀ st e, P st → stepScan runes defs st = .err e → Q e)
    (hstop : ∀ st, P st → ¬ st.pos < runes.length → R st) :
    ∀ fuel st r, P st → scanLoop runes defs fuel st = some r →
      (∀ e, r = .error e → Q e) ∧ (∀ st', r = .ok st' → R st') := by
  intro fuel
  induction fuel with
  | zero => intro st r _ h; simp [scanLoop] at h
  | succ fuel ih =>
    intro st r hP h
    rw [scanLoop] at h
    split at h
    · rename_i hpos
      cases hstep : stepScan runes defs st with
      | err e =>
        rw [hstep] at h
        cases h
        refine ⟨?_, ?_⟩
        · intro e' he
          cases he
          exact herr st e hP hstep
        · intro st' hst
          cases hst
      | done st' =>
        rw [hstep] at h
        cases h
        refine ⟨?_, ?_⟩
        · intro e' he
          cases he
        · intro st'' hst
          cases hst
          exact hdone st st' hP hstep
      | next st' =>
        rw [hstep] at h
        exact ih st' r (hnext st st' hP hstep) h
    · rename_i hpos
      cases h
      refine ⟨?_, ?_⟩
      · intro e' he
        cases he
      · intro st'' hst
        cases hst
        exact hstop st hP hpos

theorem positionalStep_err {runes : List Char} {defs : List ArgumentDefinition}
    {st : ScanState} {e : ArgumentError}
    (h : positionalStep runes defs st = .err e) :
    ∃ d ce, d ∈ defs ∧ e = ⟨d.Name, .coercion ce⟩ := by
  simp only [positionalStep] at h
  split at h
  · split at h
    · split at h
      · split at h
        · simp at h
        · simp at h
      · simp at h
    · split at h
      · rename_i d' hd'
        split at h
        · rename_i ce hce
          cases h
          exact ⟨d', ce, (findPositionalDef_spec hd').1, rfl⟩
        · simp at h
      · simp at h
  · simp at h

theorem positionalStep_done_named {runes : List Char} {defs : List ArgumentDefinition}
    {st st' : ScanState} (h : positionalStep runes defs st = .done st') :
    st'.Named = st.Named := by
  simp only [positionalStep] at h
  split at h
  · split at h
    · split at h
      · split at h
        · cases h; rfl
        · cases h; rfl
      · cases h; rfl
    · split at h
      · split at h
        · simp at h
        · simp at h
      · simp at h
  · simp at h

theorem positionalStep_next_named {runes : List Char} {defs : List ArgumentDefinition}
    {st st' : ScanState} (h : positionalStep runes defs st = .next st') :
    st'.Named = st.Named := by
  simp only [positionalStep] at h
  split at h
  · split at h
    · split at h
      · split at h
        · simp at h
        · simp at h
      · simp at h
    · split at h
      · split at h
        · simp at h
        · cases h; rfl
      · cases h; rfl
  · cases h; rfl

theorem stepScan_err {runes : List Char} {defs : List ArgumentDefinition}
    {st : ScanState} {e : ArgumentError}
    (h : stepScan runes defs st = .err e) :
    ∃ d ce, d ∈ defs ∧ e = ⟨d.Name, .coercion ce⟩ := by
  simp only [stepScan] at h
  split at h
  · simp at h
  · split at h
    · split at h
      · rename_i d' hd'
        split at h
        · simp at h
        · split at h
          · rename_i ce hce
            cases h
            exact ⟨d', ce, (findNamedDef_spec hd').1, rfl⟩
          · simp at h
      · exact positionalStep_err h
    · exact positionalStep_err h

theorem stepScan_done_named {runes : List Char} {defs : List ArgumentDefinition}
    {st st' : ScanState} (h : stepScan runes defs st = .done st') :
    st'.Named = st.Named := by
  simp only [stepScan] at h
  split at h
  · cases h; rfl
  · split at h
    · split at h
      · rename_i d' hd'
        split at h
        · simp at h
        · split at h
          · simp at h
          · simp at h
      · have h2 := positionalStep_done_named h
        exact h2
    · have h2 := positionalStep_done_named h
      exact h2

/-- The boolean-flag invariant: every entry of the `Named` map whose key
names a `Bool`-typed named definition is the presence-only binding
`{Name, true, "true"}`. -/
def BoolInv (defs : List ArgumentDefinition)
    (named : List (String × ParsedArgument)) : Prop :=
  ∀ k pa, lookupNamed named k = some pa →
    ∀ d, findNamedDef defs k = some d → d.type' = .bool →
      pa = ⟨d.Name, GoValue.bool true, "true"⟩

theorem boolInv_insert {defs : List ArgumentDefinition}
    {named : List (String × ParsedArgument)} (hInv : BoolInv defs named)
    {d : ArgumentDefinition} {pa : ParsedArgument}
    (hd : findNamedDef defs d.Name = some d)
    (hpa : d.type' = .bool → pa = ⟨d.Name, GoValue.bool true, "true"⟩) :
    BoolInv defs (insertNamed named d.Name pa) := by
  intro k pa' hlook d' hd' hbool
  rw [lookupNamed_insertNamed] at hlook
  split at hlook
  · rename_i hk
    cases hlook
    cases hk
    rw [hd] at hd'
    cases hd'
    exact hpa hbool
  · exact hInv k pa' hlook d' hd' hbool

theorem stepScan_next_boolInv {runes : List Char} {defs : List ArgumentDefinition}
    {st st' : ScanState} (hInv : BoolInv defs st.Named)
    (h : stepScan runes defs st = .next st') : BoolInv defs st'.Named := by
  simp only [stepScan] at h
  split at h
  · simp at h
  · split at h
    · split at h
      · rename_i d' hd'
        have hname := (findNamedDef_spec hd').2.2
        rw [← hname] at hd'
        split at h
        · rename_i hbool
          cases h
          exact boolInv_insert hInv hd' (fun _ => rfl)
        · rename_i hbool
          split at h
          · simp at h
          · cases h
            exact boolInv_insert hInv hd' (fun hb => absurd hb hbool)
      · rename_i hnone
        have hn := positionalStep_next_named h
        rw [hn]
        exact hInv
    · have hn := positionalStep_next_named h
      rw [hn]
      exact hInv

theorem requiredCheck_err {st : ScanState} {defs : List ArgumentDefinition}
    {e : ArgumentError} (h : requiredCheck st defs = some e) :
    (e.Message = .requiredPositionalMissing ∨ e.Message = .requiredNamedMissing) ∧
    ∃ d ∈ defs, e.Argument = d.Name := by
  induction defs with
  | nil => simp [requiredCheck] at h
  | cons d ds ih =>
    simp only [requiredCheck] at h
    split at h
    · split at h
      · split at h
        · obtain ⟨h1, d', hd', h2⟩ := ih h
          exact ⟨h1, d', List.mem_cons_of_mem _ hd', h2⟩
        · cases h
          exact ⟨Or.inl rfl, d, List.mem_cons_self _ _, rfl⟩
      · split at h
        · obtain ⟨h1, d', hd', h2⟩ := ih h
          exact ⟨h1, d', List.mem_cons_of_mem _ hd', h2⟩
        · cases h
          exact ⟨Or.inr rfl, d, List.mem_cons_self _ _, rfl⟩
    · obtain ⟨h1, d', hd', h2⟩ := ih h
      exact ⟨h1, d', List.mem_cons_of_mem _ hd', h2⟩

end Scan

/-! ## Lemmas about the whitespace-splitting pass -/

namespace Fields

theorem findNamedDef_mem {defs : List ArgumentDefinition} {name : String}
    {d : ArgumentDefinition} (h : findNamedDef defs name = some d) :
    d ∈ defs ∧ d.Kind = .named ∧ d.Name = name := by
  induction defs with
  | nil => simp [findNamedDef] at h
  | cons d' ds ih =>
    simp only [findNamedDef] at h
    split at h
    · rename_i hcond
      cases h
      exact ⟨List.mem_cons_self _ _, hcond.1, hcond.2⟩
    · have := ih h
      exact ⟨List.mem_cons_of_mem _ this.1, this.2⟩

theorem posVarStep_err {part : String} {st : FState}
    {defs : List ArgumentDefinition} {e : ArgumentError}
    (h : posVarStep part st defs = .error e) :
    (∃ ce, e.Message = .invalidValue ce) ∧ ∃ d ∈ defs, e.Argument = d.Name := by
  induction defs with
  | nil => simp [posVarStep] at h
  | cons d' ds ih =>
    simp only [posVarStep] at h
    split at h
    · split at h
      · rename_i ce hce
        cases h
        exact ⟨⟨ce, rfl⟩, d', List.mem_cons_self _ _, rfl⟩
      · simp at h
    · split at h
      · split at h
        · rename_i ce hce
          cases h
          exact ⟨⟨ce, rfl⟩, d', List.mem_cons_self _ _, rfl⟩
        · simp at h
      · obtain ⟨h1, d, hd, h2⟩ := ih h
        exact ⟨h1, d, List.mem_cons_of_mem _ hd, h2⟩

/-- The shape of every error the token pass can produce. -/
def PartsErrShape (defs : List ArgumentDefinition) (e : ArgumentError) : Prop :=
  e.Message = .unknownNamedArgument ∨
  ((e.Message = .noValueProvided ∨ ∃ ce, e.Message = .invalidValue ce) ∧
    ∃ d ∈ defs, e.Argument = d.Name)

theorem parsePartsBounded_err {defs : List ArgumentDefinition} :
    ∀ (n : Nat) {parts : List String}, parts.length ≤ n → ∀ {st : FState} {e : ArgumentError},
    parseParts defs parts st = .error e → PartsErrShape defs e := by
  intro n
  induction n with
  | zero =>
    intro parts hlen st e h
    cases parts with
    | nil => simp [parseParts] at h
    | cons part rest => simp at hlen
  | succ n ih =>
    intro parts hlen st e h
    cases parts with
    | nil => simp [parseParts] at h
    | cons part rest =>
      rw [parseParts] at h
      simp only [List.length_cons] at hlen
      split at h
      · simp only [] at h
        split at h
        · cases h
          exact Or.inl rfl
        · rename_i d hd
          have hspec := findNamedDef_mem hd
          split at h
          · -- boolean flag
            split at h
            · -- rest = next :: rest'
              split at h
              · split at h
                · exact ih (by simp at hlen ⊢; omega) h
                · exact ih (by simp at hlen ⊢; omega) h
              · exact ih (by simp at hlen ⊢; omega) h
            · -- rest = []
              exact ih (by simp) h
          · -- valued flag
            split at h
            · cases h
              exact Or.inr ⟨Or.inl rfl, d, hspec.1, hspec.2.2.symm⟩
            · split at h
              · rename_i ce hce
                cases h
                exact Or.inr ⟨Or.inr ⟨ce, rfl⟩, d, hspec.1, hspec.2.2.symm⟩
              · exact ih (by simp at hlen ⊢; omega) h
      · split at h
        · rename_i e' he
          cases h
          obtain ⟨⟨ce, hce⟩, d, hd, ha⟩ := posVarStep_err he
          exact Or.inr ⟨Or.inr ⟨ce, hce⟩, d, hd, ha⟩
        · exact ih (by omega) h

theorem parseParts_err {defs : List ArgumentDefinition} {parts : List String}
    {st : FState} {e : ArgumentError}
    (h : parseParts defs parts st = .error e) : PartsErrShape defs e :=
  parsePartsBounded_err parts.length le_rfl h

theorem validateDefs_err {msg : Option MessageGo} :
    ∀ {defs : List ArgumentDefinition} {st : VState} {e : ArgumentError},
    validateDefs msg st defs = .error e →
      e.Message = .replyRequired ∨
      (e.Message = .requiredNotProvided ∧
        ∃ d ∈ defs, e.Argument = d.Name ∧ d.Required = true ∧ d.Default = GoValue.nilv) := by
  intro defs
  induction defs with
  | nil => intro st e h; simp [validateDefs] at h
  | cons d ds ih =>
    intro st e h
    simp only [validateDefs] at h
    split at h
    · split at h
      · cases h
        exact Or.inl rfl
      · rcases ih h with h1 | ⟨h1, d', hd', h2⟩
        · exact Or.inl h1
        · exact Or.inr ⟨h1, d', List.mem_cons_of_mem _ hd', h2⟩
    · split at h
      · split at h
        · split at h
          · rcases ih h with h1 | ⟨h1, d', hd', h2⟩
            · exact Or.inl h1
            · exact Or.inr ⟨h1, d', List.mem_cons_of_mem _ hd', h2⟩
          · split at h
            · rcases ih h with h1 | ⟨h1, d', hd', h2⟩
              · exact Or.inl h1
              · exact Or.inr ⟨h1, d', List.mem_cons_of_mem _ hd', h2⟩
            · rename_i hreq hnamed hfound hdef
              cases h
              refine Or.inr ⟨rfl, d, List.mem_cons_self _ _, rfl, hreq, ?_⟩
              simpa using hdef
        · split at h
          · split at h
            · rcases ih h with h1 | ⟨h1, d', hd', h2⟩
              · exact Or.inl h1
              · exact Or.inr ⟨h1, d', List.mem_cons_of_mem _ hd', h2⟩
            · rename_i hreq hnamed hpos hdef
              cases h
              refine Or.inr ⟨rfl, d, List.mem_cons_self _ _, rfl, hreq, ?_⟩
              simpa using hdef
          · rcases ih h with h1 | ⟨h1, d', hd', h2⟩
            · exact Or.inl h1
            · exact Or.inr ⟨h1, d', List.mem_cons_of_mem _ hd', h2⟩
      · rcases ih h with h1 | ⟨h1, d', hd', h2⟩
        · exact Or.inl h1
        · exact Or.inr ⟨h1, d', List.mem_cons_of_mem _ hd', h2⟩

end Fields

/-! ## Claim theorems -/

/-- C10: the character-scanning `ParseArguments` terminates on every finite
input string and schema: every iteration of the main scan loop strictly
advances the scan position or leaves the loop, so fuel `length + 1` always
suffices for the loop to deliver a result, and the parse always completes
with a bag or an error. -/
theorem C10_scan_terminates (text : String) (defs : List Scan.ArgumentDefinition)
    (msg : Option MessageGo) :
    (∃ r, Scan.scanLoop text.data defs (text.data.length + 1)
        (Scan.initState text.data) = some r) ∧
    Scan.ParseArguments text defs msg ≠ (none, none) := by
  have htot := Scan.scanLoop_total text.data defs
    (text.data.length + 1) (Scan.initState text.data) rfl (by omega)
  refine ⟨htot, ?_⟩
  obtain ⟨r, hr⟩ := htot
  simp only [Scan.ParseArguments]
  rw [hr]
  cases r with
  | error e => simp
  | ok st =>
    cases hreq : Scan.requiredCheck st defs with
    | some e => simp [hreq]
    | none => simp [hreq]

/-- C1 (code bug): the claim says the k-th positional value is bound to the
k-th `Positional` definition in declaration order; in the code the
definition-selection condition `positionalIndex == len(args.Positional)` is
identically true, so every positional value is bound through the FIRST
positional definition.  On the schema `[p1: String Positional required,
p2: String Positional required]` and input `"x y"` both values are bound
with name `p1`, and the required-check then reports `p2` missing even
though two positional values were supplied. -/
theorem C1_positional_binding_code_bug :
    Scan.scanLoop "x y".data
        [⟨"p1", .string, .positional, true, .nilv, ""⟩,
         ⟨"p2", .string, .positional, true, .nilv, ""⟩] 4
        (Scan.initState "x y".data)
      = some (.ok ⟨3, 2,
          [⟨"p1", GoValue.str "x", "x"⟩, ⟨"p1", GoValue.str "y", "y"⟩],
          [], none⟩) ∧
    Scan.ParseArguments "x y"
        [⟨"p1", .string, .positional, true, .nilv, ""⟩,
         ⟨"p2", .string, .positional, true, .nilv, ""⟩] none
      = (none, some ⟨"p2", ErrMsg.requiredPositionalMissing⟩) :=
  ⟨rfl, rfl⟩

/-- C5 (code bug): the claim says a required `Reply`-typed definition fails
exactly when no reply-context is supplied.  In the whitespace-splitting
variant the required-check reads `args.Reply` BEFORE the reply context is
bound into it, so a schema whose first `Reply` definition is required
always fails — here even though the supplied message has a replied-to
message. -/
theorem C5_reply_required_code_bug :
    Fields.ParseArguments "" [⟨"r", .reply, .named, true, .nilv, ""⟩]
        (some (MessageGo.mk (some (MessageGo.mk none))))
      = (none, some ⟨"r", ErrMsg.replyRequired⟩) := by
  simp [Fields.ParseArguments, fieldsGo, fieldsAux, Fields.parseParts, Fields.validateDefs]

/-- C8 counterexample: parsing the six-character input `"a\"b"` against one
positional `String` definition binds the value `a"b` (three characters),
not `a"b"` as the claim states — the final quote is the closing delimiter,
not part of the value. -/
theorem C8_escaping_counterexample :
    Scan.ParseArguments "\"a\\\"b\""
        [⟨"p", .string, .positional, false, .nilv, ""⟩] none
      = (some ⟨[⟨"p", GoValue.str "a\"b", "a\"b"⟩], [], none,
          "\"a\\\"b\"", none⟩, none) ∧
    GoValue.str "a\"b" ≠ GoValue.str "a\"b\"" :=
  ⟨rfl, by decide⟩

/-- C8 (amended): parsing the six-character input quote, `a`, backslash,
quote, `b`, quote against a schema with one Positional String definition
succeeds and binds that positional argument to the value `a"b` — the
escape character is dropped, the character it precedes (the quote) is kept
literally, and the final unescaped quote closes the value. -/
theorem C8_escaping_amended :
    ((Scan.ParseArguments "\"a\\\"b\""
        [⟨"p", .string, .positional, false, .nilv, ""⟩] none).1.map
      (fun a => a.GetPositionalString 0)) = some "a\"b" ∧
    ((Scan.ParseArguments "\"a\\\"b\""
        [⟨"p", .string, .positional, false, .nilv, ""⟩] none).2 = none) :=
  ⟨rfl, rfl⟩

/-- C2 counterexample: in the whitespace-splitting variant a `-` token whose
flag name matches no declared Named definition IS a parse error
("unknown named argument"), so the claim's "parsing never fails with an
unknown-flag error" does not hold of the code as a whole. -/
theorem C2_unknown_flag_counterexample :
    Fields.ParseArguments "-x" [] none
      = (none, some ⟨"x", ErrMsg.unknownNamedArgument⟩) := by
  simp [Fields.ParseArguments, fieldsGo, fieldsAux, Fields.parseParts, strStartsWith,
    dropPfx, isSpaceGo, Fields.findNamedDef, Fields.validateDefs]

/-- C2 (amended): in the character-scanning variant a `-` token whose flag
name matches no declared Named definition is never an unknown-flag error —
the scanner re-scans it from the same position as an ordinary bare/quoted
value (no error the scanning variant produces is an unknown-flag error),
and a positional String slot can receive a value such as `-5`. -/
theorem C2_scan_unknown_flag_recovery :
    (∀ (text : String) (defs : List Scan.ArgumentDefinition) (msg : Option MessageGo)
        (e : ArgumentError),
        (Scan.ParseArguments text defs msg).2 = some e →
        e.Message ≠ ErrMsg.unknownNamedArgument) ∧
    Scan.ParseArguments "-5" [⟨"p", .string, .positional, false, .nilv, ""⟩] none
      = (some ⟨[⟨"p", GoValue.str "-5", "-5"⟩], [], none, "-5", none⟩, none) := by
  constructor
  · intro text defs msg e h hmsg
    obtain ⟨r, hr⟩ := Scan.scanLoop_total text.data defs
      (text.data.length + 1) (Scan.initState text.data) rfl (by omega)
    have hsound := Scan.scanLoop_sound text.data defs
      (fun _ => True)
      (fun e' => ∃ d ce, d ∈ defs ∧ e' = ⟨d.Name, .coercion ce⟩)
      (fun _ => True)
      (fun _ _ _ _ => trivial)
      (fun _ _ _ _ => trivial)
      (fun _ e' _ hstep => Scan.stepScan_err hstep)
      (fun _ _ _ => trivial)
      (text.data.length + 1) (Scan.initState text.data) r trivial hr
    simp only [Scan.ParseArguments] at h
    rw [hr] at h
    cases r with
    | error e' =>
      simp at h
      obtain ⟨d, ce, hd, hshape⟩ := hsound.1 e' rfl
      rw [← h, hshape] at hmsg
      cases hmsg
    | ok st =>
      simp only [] at h
      cases hreq : Scan.requiredCheck st defs with
      | some e0 =>
        rw [hreq] at h
        simp at h
        obtain ⟨hm, _⟩ := Scan.requiredCheck_err hreq
        rw [← h] at hmsg
        rcases hm with hm | hm <;> rw [hm] at hmsg <;> cases hmsg
      | none =>
        rw [hreq] at h
        simp at h
  · rfl

/-- C2 witness: a parse that fails (missing required positional) produces an
error, and by the theorem that error is not an unknown-flag error. -/
theorem C2_witness :
    (⟨"p", ErrMsg.requiredPositionalMissing⟩ : ArgumentError).Message
      ≠ ErrMsg.unknownNamedArgument :=
  C2_scan_unknown_flag_recovery.1 "" [⟨"p", .string, .positional, true, .nilv, ""⟩]
    none ⟨"p", ErrMsg.requiredPositionalMissing⟩ rfl

/-- C3 counterexample: in the whitespace-splitting variant a Bool-typed
Named flag DOES consume a following token when it parses as a boolean:
`-b false` binds `b` to `false` (not `true`), consuming `false`. -/
theorem C3_bool_inline_value_counterexample :
    Fields.ParseArguments "-b false" [⟨"b", .bool, .named, false, .nilv, ""⟩] none
      = (some ⟨[], [("b", ⟨"b", GoValue.bool false, "false"⟩)], [],
          "-b false", none⟩, none) ∧
    GoValue.bool false ≠ GoValue.bool true := by
  refine ⟨?_, by decide⟩
  simp [Fields.ParseArguments, fieldsGo, fieldsAux, Fields.parseParts, strStartsWith,
    dropPfx, isSpaceGo, Fields.findNamedDef, Fields.parseValue, goParseBool,
    Fields.insertNamed, Fields.validateDefs]

/-- C3 (amended): in the character-scanning variant boolean Named flags are
presence-only: every Bool-typed named binding in a produced bag is exactly
`{name, true, "true"}`, and parsing `-bool1 -bool2` against the claim's
schema binds both flags to `true` with no following token consumed. -/
theorem C3_scan_bool_presence_only :
    (∀ (text : String) (defs : List Scan.ArgumentDefinition) (msg : Option MessageGo)
        (a : Scan.Arguments) (k : String) (pa : Scan.ParsedArgument)
        (d : Scan.ArgumentDefinition),
        (Scan.ParseArguments text defs msg).1 = some a →
        Scan.lookupNamed a.Named k = some pa →
        Scan.findNamedDef defs k = some d → d.type' = .bool →
        pa = ⟨d.Name, GoValue.bool true, "true"⟩) ∧
    Scan.ParseArguments "-bool1 -bool2"
        [⟨"bool1", .bool, .named, false, .nilv, ""⟩,
         ⟨"bool2", .bool, .named, false, .nilv, ""⟩] none
      = (some ⟨[],
          [("bool1", ⟨"bool1", GoValue.bool true, "true"⟩),
           ("bool2", ⟨"bool2", GoValue.bool true, "true"⟩)],
          none, "-bool1 -bool2", none⟩, none) := by
  constructor
  · intro text defs msg a k pa d h hlook hfind hbool
    obtain ⟨r, hr⟩ := Scan.scanLoop_total text.data defs
      (text.data.length + 1) (Scan.initState text.data) rfl (by omega)
    have hsound := Scan.scanLoop_sound text.data defs
      (fun st => Scan.BoolInv defs st.Named)
      (fun _ => True)
      (fun st => Scan.BoolInv defs st.Named)
      (fun st st' hP hstep => Scan.stepScan_next_boolInv hP hstep)
      (fun st st' hP hstep => by
        have hn := Scan.stepScan_done_named hstep
        show Scan.BoolInv defs st'.Named
        rw [hn]
        exact hP)
      (fun _ _ _ _ => trivial)
      (fun st hP _ => hP)
      (text.data.length + 1) (Scan.initState text.data) r
      (by
        intro k' pa' hl
        simp [Scan.lookupNamed] at hl)
      hr
    simp only [Scan.ParseArguments] at h
    rw [hr] at h
    cases r with
    | error e' => simp at h
    | ok st =>
      simp only [] at h
      cases hreq : Scan.requiredCheck st defs with
      | some e0 =>
        rw [hreq] at h
        simp at h
      | none =>
        rw [hreq] at h
        simp at h
        have hB := hsound.2 st rfl
        rw [← h] at hlook
        exact hB k pa hlook d hfind hbool
  · rfl

/-- C3 witness: the universal part applied at the claim's own example. -/
theorem C3_witness :
    (⟨"bool1", GoValue.bool true, "true"⟩ : Scan.ParsedArgument)
      = ⟨"bool1", GoValue.bool true, "true"⟩ :=
  C3_scan_bool_presence_only.1 "-bool1 -bool2"
    [⟨"bool1", .bool, .named, false, .nilv, ""⟩,
     ⟨"bool2", .bool, .named, false, .nilv, ""⟩] none
    ⟨[], [("bool1", ⟨"bool1", GoValue.bool true, "true"⟩),
          ("bool2", ⟨"bool2", GoValue.bool true, "true"⟩)],
     none, "-bool1 -bool2", none⟩
    "bool1" ⟨"bool1", GoValue.bool true, "true"⟩
    ⟨"bool1", .bool, .named, false, .nilv, ""⟩ rfl rfl rfl rfl

/-- C4 counterexample: in the character-scanning variant the
required-argument validation never consults `Default`: a required
positional definition carrying the (non-nil) default `"d"` still fails
with a missing-required error on empty input. -/
theorem C4_default_ignored_counterexample :
    Scan.ParseArguments "" [⟨"p", .string, .positional, true, GoValue.str "d", ""⟩] none
      = (none, some ⟨"p", ErrMsg.requiredPositionalMissing⟩) ∧
    GoValue.str "d" ≠ GoValue.nilv :=
  ⟨rfl, by decide⟩

/-- C4 (amended): in the whitespace-splitting variant a required definition
with a non-nil `Default` never produces a missing-required error: every
`required argument not provided` error names a declared definition that is
required and has nil `Default`.  The default is actually bound into the
bag only on the code's two default paths — a required Named definition not
found in the stream, and a required Positional definition when NO
positional value at all was bound (the guard is
`len(args.Positional) == 0`): on empty input a required positional with
default `"d"` is bound to that default, but with one positional value
already bound a later required positional definition is silently skipped
and its default is NOT bound (no error either), and a required Variadic
definition is never checked or defaulted. -/
theorem C4_fields_default_prevents_missing :
    (∀ (text : String) (defs : List Fields.ArgumentDefinition) (msg : Option MessageGo)
        (e : ArgumentError),
        (Fields.ParseArguments text defs msg).2 = some e →
        e.Message = ErrMsg.requiredNotProvided →
        ∃ d ∈ defs, e.Argument = d.Name ∧ d.Required = true ∧ d.Default = GoValue.nilv) ∧
    Fields.ParseArguments "" [⟨"p", .string, .positional, true, GoValue.str "d", ""⟩] none
      = (some ⟨[⟨"p", GoValue.str "d", ""⟩], [], [], "", none⟩, none) ∧
    Fields.ParseArguments "x"
        [⟨"p1", .string, .positional, false, GoValue.nilv, ""⟩,
         ⟨"p2", .string, .positional, true, GoValue.str "d", ""⟩] none
      = (some ⟨[⟨"p1", GoValue.str "x", "x"⟩], [], [], "x", none⟩, none) ∧
    Fields.ParseArguments "" [⟨"v", .string, .variadic, true, GoValue.str "d", ""⟩] none
      = (some ⟨[], [], [], "", none⟩, none) := by
  refine ⟨?_, ?_, ?_, ?_⟩
  · intro text defs msg e h hmsg
    simp only [Fields.ParseArguments] at h
    cases hp : Fields.parseParts defs (fieldsGo text) ⟨0, [], [], [], []⟩ with
    | error e' =>
      rw [hp] at h
      simp at h
      rcases Fields.parseParts_err hp with h1 | ⟨h1 | ⟨ce, h1⟩, _⟩ <;>
        rw [← h, h1] at hmsg <;> cases hmsg
    | ok st =>
      rw [hp] at h
      simp only [] at h
      cases hv : Fields.validateDefs msg
          ⟨st.Positional, st.Named, st.Variadic, none, st.namedFound⟩ defs with
      | error e' =>
        rw [hv] at h
        simp at h
        rcases Fields.validateDefs_err hv with h1 | ⟨h1, d, hd, h2⟩
        · rw [← h, h1] at hmsg
          cases hmsg
        · rw [← h]
          exact ⟨d, hd, h2⟩
      | ok v =>
        rw [hv] at h
        simp at h
  · simp [Fields.ParseArguments, fieldsGo, fieldsAux, Fields.parseParts,
      Fields.validateDefs]
  · simp [Fields.ParseArguments, fieldsGo, fieldsAux, Fields.parseParts,
      Fields.posVarStep, Fields.parseValue, strStartsWith, isSpaceGo,
      Fields.validateDefs]
  · simp [Fields.ParseArguments, fieldsGo, fieldsAux, Fields.parseParts,
      Fields.validateDefs]

/-- C4 witness: the universal part applied to a required, default-less
named definition missing from empty input. -/
theorem C4_witness :
    ∃ d ∈ [(⟨"q", .string, .named, true, GoValue.nilv, ""⟩ :
        Fields.ArgumentDefinition)],
      ("q" : String) = d.Name ∧ d.Required = true ∧ d.Default = GoValue.nilv :=
  C4_fields_default_prevents_missing.1 ""
    [⟨"q", .string, .named, true, GoValue.nilv, ""⟩] none
    ⟨"q", ErrMsg.requiredNotProvided⟩
    (by simp [Fields.ParseArguments, fieldsGo, fieldsAux, Fields.parseParts,
      Fields.validateDefs])
    rfl

/-- C6: both `ParseArguments` variants return either a bag with no error or
an error with a nil bag — never a partially populated bag alongside an
error — and every coercion-failure error ("TypeCoercionFailure" messages:
the raw `err.Error()` of the scanning variant, `invalid value: %v` of the
splitting variant) names a declared argument definition. -/
theorem C6_coercion_failure_aborts :
    (∀ (text : String) (defs : List Scan.ArgumentDefinition) (msg : Option MessageGo),
        (∃ a, Scan.ParseArguments text defs msg = (some a, none)) ∨
        (∃ e, Scan.ParseArguments text defs msg = (none, some e))) ∧
    (∀ (text : String) (defs : List Scan.ArgumentDefinition) (msg : Option MessageGo)
        (e : ArgumentError),
        (Scan.ParseArguments text defs msg).2 = some e →
        ∀ ce, e.Message = ErrMsg.coercion ce → ∃ d ∈ defs, e.Argument = d.Name) ∧
    (∀ (text : String) (defs : List Fields.ArgumentDefinition) (msg : Option MessageGo),
        (∃ a, Fields.ParseArguments text defs msg = (some a, none)) ∨
        (∃ e, Fields.ParseArguments text defs msg = (none, some e))) ∧
    (∀ (text : String) (defs : List Fields.ArgumentDefinition) (msg : Option MessageGo)
        (e : ArgumentError),
        (Fields.ParseArguments text defs msg).2 = some e →
        ∀ ce, e.Message = ErrMsg.invalidValue ce → ∃ d ∈ defs, e.Argument = d.Name) := by
  refine ⟨?_, ?_, ?_, ?_⟩
  · intro text defs msg
    obtain ⟨r, hr⟩ := Scan.scanLoop_total text.data defs
      (text.data.length + 1) (Scan.initState text.data) rfl (by omega)
    simp only [Scan.ParseArguments]
    rw [hr]
    cases r with
    | error e => exact Or.inr ⟨e, rfl⟩
    | ok st =>
      cases hreq : Scan.requiredCheck st defs with
      | some e => simp only [hreq]; exact Or.inr ⟨e, rfl⟩
      | none => simp only [hreq]; exact Or.inl ⟨_, rfl⟩
  · intro text defs msg e h ce hce
    obtain ⟨r, hr⟩ := Scan.scanLoop_total text.data defs
      (text.data.length + 1) (Scan.initState text.data) rfl (by omega)
    have hsound := Scan.scanLoop_sound text.data defs
      (fun _ => True)
      (fun e' => ∃ d ce', d ∈ defs ∧ e' = ⟨d.Name, .coercion ce'⟩)
      (fun _ => True)
      (fun _ _ _ _ => trivial)
      (fun _ _ _ _ => trivial)
      (fun _ e' _ hstep => Scan.stepScan_err hstep)
      (fun _ _ _ => trivial)
      (text.data.length + 1) (Scan.initState text.data) r trivial hr
    simp only [Scan.ParseArguments] at h
    rw [hr] at h
    cases r with
    | error e' =>
      simp at h
      obtain ⟨d, ce', hd, hshape⟩ := hsound.1 e' rfl
      rw [← h, hshape]
      exact ⟨d, hd, rfl⟩
    | ok st =>
      simp only [] at h
      cases hreq : Scan.requiredCheck st defs with
      | some e0 =>
        rw [hreq] at h
        simp at h
        obtain ⟨hm, _⟩ := Scan.requiredCheck_err hreq
        rw [← h] at hce
        rcases hm with hm | hm <;> rw [hm] at hce <;> cases hce
      | none =>
        rw [hreq] at h
        simp at h
  · intro text defs msg
    simp only [Fields.ParseArguments]
    cases hp : Fields.parseParts defs (fieldsGo text) ⟨0, [], [], [], []⟩ with
    | error e' => exact Or.inr ⟨e', rfl⟩
    | ok st =>
      simp only []
      cases hv : Fields.validateDefs msg
          ⟨st.Positional, st.Named, st.Variadic, none, st.namedFound⟩ defs with
      | error e' => simp only [hv]; exact Or.inr ⟨e', rfl⟩
      | ok v => simp only [hv]; exact Or.inl ⟨_, rfl⟩
  · intro text defs msg e h ce hce
    simp only [Fields.ParseArguments] at h
    cases hp : Fields.parseParts defs (fieldsGo text) ⟨0, [], [], [], []⟩ with
    | error e' =>
      rw [hp] at h
      simp at h
      rcases Fields.parseParts_err hp with h1 | ⟨h1 | ⟨ce', h1⟩, d, hd, ha⟩
      · rw [← h, h1] at hce
        cases hce
      · rw [← h, h1] at hce
        cases hce
      · rw [← h]
        exact ⟨d, hd, ha⟩
    | ok st =>
      rw [hp] at h
      simp only [] at h
      cases hv : Fields.validateDefs msg
          ⟨st.Positional, st.Named, st.Variadic, none, st.namedFound⟩ defs with
      | error e' =>
        rw [hv] at h
        simp at h
        rcases Fields.validateDefs_err hv with h1 | ⟨h1, _⟩ <;>
          rw [← h, h1] at hce <;> cases hce
      | ok v =>
        rw [hv] at h
        simp at h

/-- C6 witness: the coercion-naming part applied at a parse whose `Int`
coercion fails: the error names the declared definition `n`. -/
theorem C6_witness :
    ∃ d ∈ [(⟨"n", .int, .positional, false, GoValue.nilv, ""⟩ :
        Scan.ArgumentDefinition)], ("n" : String) = d.Name :=
  C6_coercion_failure_aborts.2.1 "abc"
    [⟨"n", .int, .positional, false, GoValue.nilv, ""⟩] none
    ⟨"n", ErrMsg.coercion (CoercionError.atoiSyntax "abc")⟩ rfl
    (CoercionError.atoiSyntax "abc") rfl

/-- C7: entity resolution always attempts handle/username resolution first
on the raw string with one leading `@` stripped (in all three functions a
successful handle lookup wins outright); numeric-id resolution is reached
only when the handle attempt yields no user, and when the raw string does
not parse as a base-10 integer — or when the numeric path itself fails —
the returned error carries the original raw string.  In particular, for
raw text `"42"` with a resolver where both paths would succeed, the handle
path is attempted first and its result wins, whatever the peer storage
returns. -/
theorem C7_entity_resolution_order :
    (∀ (ctx : Scan.ExtContext) (a : Scan.Arguments) (name : String) (u : Int),
        a.GetEntity name ≠ "" →
        ctx.resolveUsername (dropPfx (a.GetEntity name) "@") = some (.user u) →
        a.ResolveEntity ctx name = (some u, none)) ∧
    (∀ (ctx : Scan.ExtContext) (a : Scan.Arguments) (index : Int) (u : Int),
        a.GetPositionalEntity index ≠ "" →
        ctx.resolveUsername (dropPfx (a.GetPositionalEntity index) "@") = some (.user u) →
        a.ResolvePositionalEntity ctx index = (some u, none)) ∧
    (∀ (ctx : Scan.ExtContext) (a : Scan.Arguments) (u : Int),
        a.GetRest ≠ "" →
        ctx.resolveUsername (dropPfx a.GetRest "@") = some (.user u) →
        a.ResolveRestEntity ctx = (some u, none)) ∧
    (∀ (ctx : Scan.ExtContext) (a : Scan.Arguments) (name : String),
        a.GetEntity name ≠ "" →
        (∀ u : Int, ctx.resolveUsername (dropPfx (a.GetEntity name) "@") ≠ some (.user u)) →
        goParseInt64 (a.GetEntity name) = none →
        a.ResolveEntity ctx name = (none, some (.couldNotResolve (a.GetEntity name)))) ∧
    (∀ (ctx : Scan.ExtContext) (a : Scan.Arguments) (name : String),
        a.GetEntity name ≠ "" →
        (∀ u : Int, ctx.resolveUsername (dropPfx (a.GetEntity name) "@") ≠ some (.user u)) →
        (∀ id, goParseInt64 (a.GetEntity name) = some id →
            ctx.getInputPeerFromId id = none ∨
            ∀ u : Int, ctx.resolveUsername (toString id) ≠ some (.user u)) →
        a.ResolveEntity ctx name = (none, some (.couldNotResolve (a.GetEntity name)))) ∧
    (∀ (peers : Int → Option Scan.PeerGo) (u : Int),
        (Scan.Arguments.mk [] [("target", ⟨"target", GoValue.str "42", "42"⟩)]
            none "" none).ResolveEntity
          ⟨fun s => if s = "42" then some (.user u) else none, peers⟩ "target"
        = (some u, none)) := by
  refine ⟨?_, ?_, ?_, ?_, ?_, ?_⟩
  · intro ctx a name u hraw hres
    simp only [Scan.Arguments.ResolveEntity]
    rw [if_pos hraw, hres]
  · intro ctx a index u hraw hres
    simp only [Scan.Arguments.ResolvePositionalEntity]
    rw [if_pos hraw, hres]
  · intro ctx a u hraw hres
    simp only [Scan.Arguments.ResolveRestEntity]
    rw [if_neg hraw, hres]
  · intro ctx a name hraw hfail hint
    simp only [Scan.Arguments.ResolveEntity]
    rw [if_pos hraw]
    cases hres : ctx.resolveUsername (dropPfx (a.GetEntity name) "@") with
    | none => simp [hint]
    | some chat =>
      cases chat with
      | user u => exact absurd hres (hfail u)
      | otherChat => simp [hint]
  · intro ctx a name hraw hfail hnum
    simp only [Scan.Arguments.ResolveEntity]
    rw [if_pos hraw]
    have main : (match goParseInt64 (a.GetEntity name) with
        | some id =>
          match ctx.getInputPeerFromId id with
          | some _ =>
            match ctx.resolveUsername (toString id) with
            | some (Scan.ChatGo.user u) => ((some u : Option Int), (none : Option Scan.ResolveErr))
            | _ => (none, some (Scan.ResolveErr.couldNotResolve (a.GetEntity name)))
          | none => (none, some (Scan.ResolveErr.couldNotResolve (a.GetEntity name)))
        | none => (none, some (Scan.ResolveErr.couldNotResolve (a.GetEntity name)))) =
        (none, some (Scan.ResolveErr.couldNotResolve (a.GetEntity name))) := by
      cases hint : goParseInt64 (a.GetEntity name) with
      | none => simp
      | some id =>
        rcases hnum id hint with hpeer | hres2
        · simp [hpeer]
        · cases hpeer : ctx.getInputPeerFromId id with
          | none => simp [hpeer]
          | some p =>
            cases hres3 : ctx.resolveUsername (toString id) with
            | none => simp [hpeer, hres3]
            | some chat =>
              cases chat with
              | user u => exact absurd hres3 (hres2 u)
              | otherChat => simp [hpeer, hres3]
    cases hres : ctx.resolveUsername (dropPfx (a.GetEntity name) "@") with
    | none => exact main
    | some chat =>
      cases chat with
      | user u => exact absurd hres (hfail u)
      | otherChat => exact main
  · intro peers u
    rfl

/-- C7 witness: the handle-first conjunct applied to the all-digits raw
string `"42"` with a resolver that answers the handle lookup. -/
theorem C7_witness :
    (Scan.Arguments.mk [] [("target", ⟨"target", GoValue.str "42", "42"⟩)]
        none "" none).ResolveEntity
      ⟨fun s => if s = "42" then some (.user 7) else none, fun _ => some .somePeer⟩
      "target" = (some 7, none) :=
  C7_entity_resolution_order.1
    ⟨fun s => if s = "42" then some (.user 7) else none, fun _ => some .somePeer⟩
    (Scan.Arguments.mk [] [("target", ⟨"target", GoValue.str "42", "42"⟩)] none "" none)
    "target" 7 (by decide) rfl

/-- C9: the typed accessors are total and never fail: whenever the named
argument is absent or its stored value is not of the asked-for type,
`GetInt` returns 0, `GetString` returns `""`, `GetBool` returns `false`,
`GetFloat` returns the zero float and `GetDuration` the zero duration; and
the positional accessors return the analogous zero values for every
out-of-range index (negative included). -/
theorem C9_accessors_total :
    (∀ (a : Scan.Arguments) (name : String),
        (∀ pa, Scan.lookupNamed a.Named name = some pa →
          ∀ n : Int, pa.Value ≠ GoValue.int n) →
        a.GetInt name = 0) ∧
    (∀ (a : Scan.Arguments) (name : String),
        (∀ pa, Scan.lookupNamed a.Named name = some pa →
          ∀ s : String, pa.Value ≠ GoValue.str s) →
        a.GetString name = "") ∧
    (∀ (a : Scan.Arguments) (name : String),
        (∀ pa, Scan.lookupNamed a.Named name = some pa →
          ∀ b : Bool, pa.Value ≠ GoValue.bool b) →
        a.GetBool name = false) ∧
    (∀ (a : Scan.Arguments) (name : String),
        (∀ pa, Scan.lookupNamed a.Named name = some pa →
          ∀ f : GoFloat, pa.Value ≠ GoValue.float f) →
        a.GetFloat name = GoFloat.zero) ∧
    (∀ (a : Scan.Arguments) (name : String),
        (∀ pa, Scan.lookupNamed a.Named name = some pa →
          ∀ d : HdurDuration, pa.Value ≠ GoValue.duration d) →
        a.GetDuration name = HdurDuration.zero) ∧
    (∀ (a : Scan.Arguments) (index : Int),
        ¬ (0 ≤ index ∧ index < (a.Positional.length : Int)) →
        a.GetPositional index = GoValue.nilv ∧
        a.GetPositionalString index = "" ∧
        a.GetPositionalInt index = 0 ∧
        a.GetPositionalFloat index = GoFloat.zero ∧
        a.GetPositionalBool index = false ∧
        a.GetPositionalDuration index = HdurDuration.zero ∧
        a.GetPositionalEntity index = "") := by
  have hget : ∀ (a : Scan.Arguments) (name : String),
      a.Get name = GoValue.nilv ∨
      ∃ pa, Scan.lookupNamed a.Named name = some pa ∧ a.Get name = pa.Value := by
    intro a name
    simp only [Scan.Arguments.Get]
    cases h : Scan.lookupNamed a.Named name with
    | none => exact Or.inl rfl
    | some pa => exact Or.inr ⟨pa, rfl, rfl⟩
  refine ⟨?_, ?_, ?_, ?_, ?_, ?_⟩
  · intro a name hno
    rcases hget a name with hv | ⟨pa, hpa, hv⟩
    · simp [Scan.Arguments.GetInt, hv]
    · simp only [Scan.Arguments.GetInt, hv]
      cases hval : pa.Value <;> first
        | rfl
        | exact absurd hval (hno pa hpa _)
  · intro a name hno
    rcases hget a name with hv | ⟨pa, hpa, hv⟩
    · simp [Scan.Arguments.GetString, hv]
    · simp only [Scan.Arguments.GetString, hv]
      cases hval : pa.Value <;> first
        | rfl
        | exact absurd hval (hno pa hpa _)
  · intro a name hno
    rcases hget a name with hv | ⟨pa, hpa, hv⟩
    · simp [Scan.Arguments.GetBool, hv]
    · simp only [Scan.Arguments.GetBool, hv]
      cases hval : pa.Value <;> first
        | rfl
        | exact absurd hval (hno pa hpa _)
  · intro a name hno
    rcases hget a name with hv | ⟨pa, hpa, hv⟩
    · simp [Scan.Arguments.GetFloat, hv]
    · simp only [Scan.Arguments.GetFloat, hv]
      cases hval : pa.Value <;> first
        | rfl
        | exact absurd hval (hno pa hpa _)
  · intro a name hno
    rcases hget a name with hv | ⟨pa, hpa, hv⟩
    · simp [Scan.Arguments.GetDuration, hv]
    · simp only [Scan.Arguments.GetDuration, hv]
      cases hval : pa.Value <;> first
        | rfl
        | exact absurd hval (hno pa hpa _)
  · intro a index hout
    have h1 : a.GetPositional index = GoValue.nilv := by
      simp only [Scan.Arguments.GetPositional]
      rw [if_neg hout]
    refine ⟨h1, ?_, ?_, ?_, ?_, ?_, ?_⟩
    · simp [Scan.Arguments.GetPositionalString, h1]
    · simp [Scan.Arguments.GetPositionalInt, h1]
    · simp [Scan.Arguments.GetPositionalFloat, h1]
    · simp [Scan.Arguments.GetPositionalBool, h1]
    · simp [Scan.Arguments.GetPositionalDuration, h1]
    · simp only [Scan.Arguments.GetPositionalEntity]
      rw [if_neg hout]

/-- C9 witness: asking for an `Int` on a Bool-typed argument returns 0, and
the positional accessors return zero values at the out-of-range index 5 of
an empty bag. -/
theorem C9_witness :
    (Scan.Arguments.mk [] [("i", ⟨"i", GoValue.bool true, "t"⟩)] none "" none).GetInt "i" = 0 ∧
    (Scan.Arguments.mk [] [] none "" none).GetPositional 5 = GoValue.nilv ∧
    (Scan.Arguments.mk [] [] none "" none).GetPositionalString 5 = "" ∧
    (Scan.Arguments.mk [] [] none "" none).GetPositionalInt 5 = 0 ∧
    (Scan.Arguments.mk [] [] none "" none).GetPositionalFloat 5 = GoFloat.zero ∧
    (Scan.Arguments.mk [] [] none "" none).GetPositionalBool 5 = false ∧
    (Scan.Arguments.mk [] [] none "" none).GetPositionalDuration 5 = HdurDuration.zero ∧
    (Scan.Arguments.mk [] [] none "" none).GetPositionalEntity 5 = "" := by
  have h1 := C9_accessors_total.1
    (Scan.Arguments.mk [] [("i", ⟨"i", GoValue.bool true, "t"⟩)] none "" none) "i"
    (by
      intro pa hpa n
      simp [Scan.lookupNamed] at hpa
      rw [← hpa]
      simp)
  have h2 := C9_accessors_total.2.2.2.2.2
    (Scan.Arguments.mk [] [] none "" none) 5 (by simp)
  exact ⟨h1, h2.1, h2.2.1, h2.2.2.1, h2.2.2.2.1, h2.2.2.2.2.1, h2.2.2.2.2.2.1,
    h2.2.2.2.2.2.2⟩

end Macron
